import Mathlib

/-!
Shallow embedding of the websocket chat server in `backend/server.py`.

The server keeps global mutable state (a set `clients` of live connections,
dicts `clients_info` and `id_to_ws` for the session registry, a list
`messages` with a counter `next_id`, and a dict `temp_tasks` of pending
expiry timers) and handles one inbound text line at a time.  All state
mutation in the source happens between `await` points of a single asyncio
event loop, so each command handler, each connect/disconnect cleanup and
each timer body runs atomically with respect to the shared state; we embed
them as pure state-transition functions and model an execution of the server
as a sequence of such atomic steps (`SysOp`).

Python strings are modelled as `List Char` (Python indexing/slicing is by
code point).  Python `int(...)` is modelled as parsing an optional sign
followed by decimal digits, with surrounding whitespace allowed (digit-group
underscores and non-ASCII digits are not modelled).  Dicts are modelled as
association lists in insertion order, which matches Python dict iteration
order (`aupdate` replaces in place on an existing key and appends a fresh
key at the end, exactly like dict assignment).
-/

namespace Chat

/-- Python strings, by code point. -/
abbrev Str := List Char

/-- A live websocket connection handle (opaque in the source). -/
abbrev Conn := Nat

/-- Python `s.startswith(pre)`. -/
def startsWithL (s pre : Str) : Bool :=
  match s, pre with
  | _, [] => true
  | [], _ :: _ => false
  | c :: cs, p :: ps => c == p && startsWithL cs ps

/-- The whitespace class of Python `str.strip()` / `int()`. -/
def isSpace (c : Char) : Bool :=
  c == ' ' || c == '\t' || c == '\n' || c == '\r' || c == '\x0b' || c == '\x0c'

/-- Python `s.strip()`. -/
def trimL (s : Str) : Str :=
  ((s.dropWhile isSpace).reverse.dropWhile isSpace).reverse

def split1Aux (acc : Str) : Str → List Str
  | [] => [acc.reverse]
  | c :: cs => if c = ' ' then [acc.reverse, cs] else split1Aux (c :: acc) cs

/-- Python `s.split(" ", 1)`: a one-element list when `s` has no space,
otherwise the part before the first space and everything after it. -/
def split1 (s : Str) : List Str := split1Aux [] s

def isDigitC (c : Char) : Bool := 48 ≤ c.toNat && c.toNat ≤ 57

def digitsVal (cs : Str) : Nat := cs.foldl (fun a c => a * 10 + (c.toNat - 48)) 0

def decDigits (cs : Str) : Bool := !cs.isEmpty && cs.all isDigitC

/-- Python `int(s)` on a text argument: optional sign, decimal digits,
surrounding whitespace tolerated; anything else raises `ValueError`,
modelled as `none`. -/
def pyInt (s : Str) : Option Int :=
  match trimL s with
  | [] => none
  | '-' :: rest => if decDigits rest then some (-(digitsVal rest : Int)) else none
  | '+' :: rest => if decDigits rest then some ((digitsVal rest : Int)) else none
  | cs => if decDigits cs then some ((digitsVal cs : Int)) else none

/-- Association-list lookup (Python `d.get(k)` / `d[k]`). -/
def alookup {α β : Type} [DecidableEq α] (k : α) : List (α × β) → Option β
  | [] => none
  | (a, b) :: rest => if a = k then some b else alookup k rest

/-- Association-list update (Python `d[k] = v`): replaces in place if the
key is present, appends otherwise — Python dict insertion-order semantics. -/
def aupdate {α β : Type} [DecidableEq α] (k : α) (v : β) : List (α × β) → List (α × β)
  | [] => [(k, v)]
  | (a, b) :: rest => if a = k then (k, v) :: rest else (a, b) :: aupdate k v rest

/-- Association-list key removal (Python `d.pop(k, None)`). -/
def aremove {α β : Type} [DecidableEq α] (k : α) : List (α × β) → List (α × β)
  | [] => []
  | (a, b) :: rest => if a = k then rest else (a, b) :: aremove k rest

/-- `clients_info` values: `{'id': ..., 'name': ...}` (server.py line 56). -/
structure ClientInfo where
  id : Str
  name : Str
deriving DecidableEq

/-- One entry of the `messages` list (server.py line 19): a dict with keys
`id`, `text`, `reply_to`, `from_id`, `from_name`, `to_id`, and for
temporary messages additionally `expires_at`. -/
structure Msg where
  id : Nat
  text : Str
  reply_to : Option Int
  from_id : Option Str
  from_name : Option Str
  to_id : Option Str
  expires_at : Option Int
deriving DecidableEq

/-- The server's global mutable state.  `now` stands for the wall clock
`time.time()` read when a `/temp` message is posted; no claim depends on
its value, so steps leave it fixed. -/
structure ServerState where
  clients : List Conn
  clients_info : List (Conn × ClientInfo)
  id_to_ws : List (Str × Conn)
  messages : List Msg
  next_id : Nat
  temp_tasks : List Int
  now : Int
deriving DecidableEq

/-- JSON events the server sends (the `type` field discriminates). -/
inductive Event where
  | message (m : Msg)
  | deleteEv (id : Int)
  | clientsEv (roster : List ClientInfo)
  | initEv (you : ClientInfo) (msgs : List Msg) (roster : List ClientInfo)
deriving DecidableEq

/-- One delivery attempt: an event together with the concrete list of
connections it is sent to (for `broadcast` this is the `clients` set at
send time, for the `/to` path the explicit `send_to` list). -/
structure Send where
  recipients : List Conn
  event : Event
deriving DecidableEq

/-- Result of handling one inbound line: the new state, the sends it
performed, and whether the connection was closed (`/exit`). -/
structure HandleOut where
  st : ServerState
  sends : List Send
  closed : Bool
deriving DecidableEq

/-- The structured intent of one inbound line.  The source interleaves
parsing and effect inside `handle`; we split it into `parseLine` (branch
conditions and argument parsing, in source order) and `applyCmd` (the
effect of each branch).  `dropped` is the source's bare `continue` on a
failed parse. -/
inductive Cmd where
  | deleteLast
  | deleteById (tid : Int)
  | dropped
  | reply (rid : Int) (text : Str)
  | temp (ttl : Int) (text : Str)
  | toCmd (target : Str) (text : Str)
  | exitCmd
  | publicPost (text : Str)
deriving DecidableEq

/-- The branch structure of the `async for msg in ws` loop (server.py
lines 66-184), in source order: `/delete `, `/reply `, `/temp `, `/to `,
`/exit` (exact after strip), else a public post of the whole line. -/
def parseLine (line : Str) : Cmd :=
  if startsWithL line "/delete ".toList then
    if trimL (line.drop 8) = "last".toList then .deleteLast
    else
      match pyInt (trimL (line.drop 8)) with
      | some n => .deleteById n
      | none => .dropped
  else if startsWithL line "/reply ".toList then
    match split1 (trimL (line.drop 7)) with
    | [p0, p1] =>
      match pyInt p0 with
      | some r => .reply r p1
      | none => .dropped
    | _ => .dropped
  else if startsWithL line "/temp ".toList then
    match split1 (trimL (line.drop 6)) with
    | [p0, p1] =>
      match pyInt p0 with
      | some t => .temp t p1
      | none => .dropped
    | _ => .dropped
  else if startsWithL line "/to ".toList then
    match split1 (trimL (line.drop 4)) with
    | [t0, t1] => .toCmd t0 t1
    | _ => .dropped
  else if trimL line = "/exit".toList then .exitCmd
  else .publicPost line

/-- `clients_info.get(ws, {'id': None, 'name': None})`, as used by every
message-creating branch. -/
def senderInfo (st : ServerState) (ws : Conn) : Option Str × Option Str :=
  match alookup ws st.clients_info with
  | some ci => (some ci.id, some ci.name)
  | none => (none, none)

/-- Delete the first stored message whose `id` equals `tid` (the
`for i, m in enumerate(messages): if m["id"] == target_id: del messages[i]`
scan); `none` when no message matches. -/
def deleteFirstById (ms : List Msg) (tid : Int) : Option (List Msg) :=
  match ms with
  | [] => none
  | m :: rest =>
    if (m.id : Int) = tid then some rest
    else (deleteFirstById rest tid).map (fun ms2 => m :: ms2)

/-- `temp_tasks.pop(k, None)` on the dict's key set. -/
def popKey (k : Int) (l : List Int) : List Int := l.filter (fun x => decide (x ≠ k))

/-- `temp_tasks[k] = task` on the dict's key set. -/
def addKey (k : Int) (l : List Int) : List Int := if k ∈ l then l else l ++ [k]

/-- The shared deletion path of `/delete <n>` and `/delete last`
(server.py lines 80-88): remove the first matching message, cancel any
pending expiry task for it, broadcast `{"type": "delete", "id": ...}`;
when nothing matches, fall through without touching anything. -/
def applyDelete (st : ServerState) (target_id : Int) : HandleOut :=
  match deleteFirstById st.messages target_id with
  | none => ⟨st, [], false⟩
  | some ms2 =>
    ⟨{ st with messages := ms2, temp_tasks := popKey target_id st.temp_tasks },
     [⟨st.clients, .deleteEv target_id⟩], false⟩

/-- The `send_to` list of the `/to` branch (server.py lines 158-161):
the resolved target connection if it is in the `clients` set, then the
sender itself. -/
def dmAudience (st : ServerState) (ws : Conn) (target_cid : Str) : List Conn :=
  (match alookup target_cid st.id_to_ws with
   | some t => if t ∈ st.clients then [t] else []
   | none => []) ++ [ws]

/-- The effect of each branch of the read loop on the shared state
(server.py lines 66-184). -/
def applyCmd (st : ServerState) (ws : Conn) : Cmd → HandleOut
  | .dropped => ⟨st, [], false⟩
  | .deleteLast =>
    match st.messages.getLast? with
    | none => ⟨st, [], false⟩
    | some m => applyDelete st (m.id : Int)
  | .deleteById tid => applyDelete st tid
  | .reply rid text =>
    let s := senderInfo st ws
    let m : Msg := ⟨st.next_id, text, some rid, s.1, s.2, none, none⟩
    ⟨{ st with messages := st.messages ++ [m], next_id := st.next_id + 1 },
     [⟨st.clients, .message m⟩], false⟩
  | .temp ttl text =>
    let s := senderInfo st ws
    let m : Msg := ⟨st.next_id, text, none, s.1, s.2, none, some (st.now + ttl)⟩
    ⟨{ st with
        messages := st.messages ++ [m]
        next_id := st.next_id + 1
        temp_tasks := addKey (st.next_id : Int) st.temp_tasks },
     [⟨st.clients, .message m⟩], false⟩
  | .toCmd tcid text =>
    let s := senderInfo st ws
    let m : Msg := ⟨st.next_id, text, none, s.1, s.2, some tcid, none⟩
    ⟨{ st with messages := st.messages ++ [m], next_id := st.next_id + 1 },
     [⟨dmAudience st ws tcid, .message m⟩], false⟩
  | .exitCmd => ⟨st, [], true⟩
  | .publicPost text =>
    let s := senderInfo st ws
    let m : Msg := ⟨st.next_id, text, none, s.1, s.2, none, none⟩
    ⟨{ st with messages := st.messages ++ [m], next_id := st.next_id + 1 },
     [⟨st.clients, .message m⟩], false⟩

/-- Handling of one inbound line: parse, then apply. -/
def handleLine (st : ServerState) (ws : Conn) (line : Str) : HandleOut :=
  applyCmd st ws (parseLine line)

/-- `list(clients_info.values())`, the roster sent in `init` and
`clients` events. -/
def roster (st : ServerState) : List ClientInfo := st.clients_info.map Prod.snd

/-- The id drawn at registration: `client_id = f"{name}-{short}"`
(server.py line 57). -/
def mkClientId (name short : Str) : Str := name ++ "-".toList ++ short

/-- Registration's effect on the registry (server.py lines 52-58):
`clients.add(ws)`, `clients_info[ws] = {...}`, `id_to_ws[client_id] = ws`. -/
def connectState (st : ServerState) (ws : Conn) (name short : Str) : ServerState :=
  { st with
    clients := if ws ∈ st.clients then st.clients else st.clients ++ [ws]
    clients_info := aupdate ws ⟨mkClientId name short, name⟩ st.clients_info
    id_to_ws := aupdate (mkClientId name short) ws st.id_to_ws }

/-- Connection setup (server.py lines 52-64): register the connection,
send the `init` snapshot to the new connection only, then broadcast the
updated roster. -/
def connectOut (st : ServerState) (ws : Conn) (name short : Str) : ServerState × List Send :=
  (connectState st ws name short,
   [⟨[ws], .initEv ⟨mkClientId name short, name⟩ (connectState st ws name short).messages
       (roster (connectState st ws name short))⟩,
    ⟨(connectState st ws name short).clients,
     .clientsEv (roster (connectState st ws name short))⟩])

/-- Teardown's effect on the registry, shared by the `finally` block
(server.py lines 187-191) and the dead-client cleanup in `broadcast`
(lines 39-44): discard from `clients`, pop `clients_info`, and pop the
popped identity's id from `id_to_ws`. -/
def disconnectState (st : ServerState) (ws : Conn) : ServerState :=
  match alookup ws st.clients_info with
  | some info =>
    { st with
        clients := st.clients.erase ws
        clients_info := aremove ws st.clients_info
        id_to_ws := aremove info.id st.id_to_ws }
  | none => { st with clients := st.clients.erase ws }

/-- Connection teardown, the `finally` block (server.py lines 187-194):
cleanup, then broadcast the shrunken roster. -/
def disconnectOut (st : ServerState) (ws : Conn) : ServerState × List Send :=
  (disconnectState st ws,
   [⟨(disconnectState st ws).clients, .clientsEv (roster (disconnectState st ws))⟩])

/-- Dead-connection pruning inside `broadcast` (server.py lines 37-47):
same cleanup as disconnect, but the roster broadcast happens only when the
connection was still registered. -/
def pruneOut (st : ServerState) (ws : Conn) : ServerState × List Send :=
  if (alookup ws st.clients_info).isSome then
    (disconnectState st ws,
     [⟨(disconnectState st ws).clients, .clientsEv (roster (disconnectState st ws))⟩])
  else (disconnectState st ws, [])

/-- The body of the `expire` timer task (server.py lines 128-139) after
its sleep: if the message is still present, remove it, drop the task from
`temp_tasks`, and broadcast the delete event; otherwise do nothing. -/
def fireTimer (st : ServerState) (mid : Nat) : ServerState × List Send :=
  match deleteFirstById st.messages (mid : Int) with
  | none => (st, [])
  | some ms2 =>
    ({ st with messages := ms2, temp_tasks := popKey (mid : Int) st.temp_tasks },
     [⟨st.clients, .deleteEv (mid : Int)⟩])

/-- One atomic step of the running server: a connection arriving (with the
two random strings the registration draws), a connection-handler `finally`
cleanup, a dead-connection prune, one inbound line, or an expiry timer
firing. -/
inductive SysOp where
  | conn (ws : Conn) (name short : Str)
  | disc (ws : Conn)
  | prune (ws : Conn)
  | line (ws : Conn) (s : Str)
  | fire (mid : Nat)
deriving DecidableEq

def sysStep (st : ServerState) : SysOp → ServerState × List Send
  | .conn ws name short => connectOut st ws name short
  | .disc ws => disconnectOut st ws
  | .prune ws => pruneOut st ws
  | .line ws s => let o := handleLine st ws s; (o.st, o.sends)
  | .fire mid => fireTimer st mid

def sysRun (st : ServerState) : List SysOp → ServerState
  | [] => st
  | op :: ops => sysRun (sysStep st op).1 ops

def sysSends (st : ServerState) : List SysOp → List Send
  | [] => []
  | op :: ops => (sysStep st op).2 ++ sysSends (sysStep st op).1 ops

/-- The server's state at startup (server.py lines 16-22): everything
empty, `next_id = 1`. -/
def initState : ServerState :=
  { clients := [], clients_info := [], id_to_ws := [], messages := [],
    next_id := 1, temp_tasks := [], now := 0 }

/-- Which steps the running server can actually take in a given state: a
new connection is a fresh transport handle (never an already-registered
one), and an expiry timer can only fire while its task is alive, i.e.
scheduled and not yet cancelled or completed (`temp_tasks` holds exactly
those: entries are added on schedule and popped on cancel and on fire). -/
def opValid (st : ServerState) : SysOp → Bool
  | .conn ws _ _ => (alookup ws st.clients_info).isNone && !(st.clients.contains ws)
  | .fire mid => st.temp_tasks.contains (mid : Int)
  | _ => true

def validTrace (st : ServerState) : List SysOp → Bool
  | [] => true
  | op :: ops => opValid st op && validTrace (sysStep st op).1 ops

/-- The extra assumption of the amended registry claim, for one step:
the id drawn at a registration differs from every currently registered
id. -/
def opFreshId (st : ServerState) : SysOp → Bool
  | .conn _ name short => (alookup (mkClientId name short) st.id_to_ws).isNone
  | _ => true

/-- The extra assumption of the amended registry claim, along a trace. -/
def freshIds (st : ServerState) : List SysOp → Bool
  | [] => true
  | op :: ops => opFreshId st op && freshIds (sysStep st op).1 ops

/-! ### Concrete states and traces used by witnesses and counterexamples -/

/-- A small running state: clients `A-aa` (conn 0) and `B-bb` (conn 1)
registered, one public message from A already stored. -/
def mA : Msg := ⟨1, "hello".toList, none, some "A-aa".toList, some "A".toList, none, none⟩

def stTwo : ServerState :=
  { clients := [0, 1]
    clients_info := [(0, ⟨"A-aa".toList, "A".toList⟩), (1, ⟨"B-bb".toList, "B".toList⟩)]
    id_to_ws := [("A-aa".toList, 0), ("B-bb".toList, 1)]
    messages := [mA]
    next_id := 2
    temp_tasks := []
    now := 0 }

/-! ### Helper lemmas -/

theorem deleteFirstById_eq_none {ms : List Msg} {tid : Int}
    (h : ∀ m ∈ ms, (m.id : Int) ≠ tid) : deleteFirstById ms tid = none := by
  induction ms with
  | nil => rfl
  | cons m rest ih =>
    unfold deleteFirstById
    rw [if_neg (h m (List.mem_cons_self m rest))]
    rw [ih (fun m' hm' => h m' (List.mem_cons_of_mem m hm'))]
    rfl

/-! ### C7: deleting an absent id is a silent no-op -/

/-- C7: for every id `n`, issuing `/delete n` when no message with id `n`
is in the store raises no error, leaves the whole server state unchanged,
and broadcasts nothing; likewise `/delete last` on an empty store. -/
theorem delete_missing_is_noop (st : ServerState) (ws : Conn) (tid : Int) :
    ((∀ m ∈ st.messages, (m.id : Int) ≠ tid) →
      applyCmd st ws (.deleteById tid) = ⟨st, [], false⟩) ∧
    (st.messages = [] → applyCmd st ws .deleteLast = ⟨st, [], false⟩) := by
  constructor
  · intro h
    show applyDelete st tid = _
    unfold applyDelete
    rw [deleteFirstById_eq_none h]
  · intro h
    show (match st.messages.getLast? with
      | none => (⟨st, [], false⟩ : HandleOut)
      | some m => applyDelete st (m.id : Int)) = _
    rw [h]
    rfl

/-- Witness for C7 at concrete inputs: deleting the never-issued id 5 in
`stTwo`, and `/delete last` in the empty initial store. -/
theorem delete_missing_is_noop_witness :
    applyCmd stTwo 0 (.deleteById 5) = ⟨stTwo, [], false⟩ ∧
    applyCmd initState 0 .deleteLast = ⟨initState, [], false⟩ :=
  ⟨(delete_missing_is_noop stTwo 0 5).1 (by decide),
   (delete_missing_is_noop initState 0 5).2 (by decide)⟩

/-! ### C5: direct-message audience -/

/-- Membership in the `/to` send list: exactly the sender, plus the
target's connection when its id resolves and that connection is in the
live `clients` set. -/
theorem mem_dmAudience (st : ServerState) (ws : Conn) (tcid : Str) (c : Conn) :
    c ∈ dmAudience st ws tcid ↔
      (c = ws ∨ (alookup tcid st.id_to_ws = some c ∧ c ∈ st.clients)) := by
  unfold dmAudience
  cases h : alookup tcid st.id_to_ws with
  | none =>
    show c ∈ ([] : List Conn) ++ [ws] ↔ _
    rw [List.nil_append]
    constructor
    · intro hc; exact Or.inl (List.mem_singleton.mp hc)
    · rintro (hc | ⟨hs, _⟩)
      · subst hc; exact List.mem_singleton.mpr rfl
      · cases hs
  | some t =>
    show c ∈ (if t ∈ st.clients then [t] else []) ++ [ws] ↔ _
    by_cases ht : t ∈ st.clients
    · rw [if_pos ht, List.singleton_append]
      constructor
      · intro hc
        rcases List.mem_cons.mp hc with h1 | h1
        · subst h1; exact Or.inr ⟨rfl, ht⟩
        · exact Or.inl (List.mem_singleton.mp h1)
      · rintro (hc | ⟨hs, _⟩)
        · subst hc; exact List.mem_cons.mpr (Or.inr (List.mem_singleton.mpr rfl))
        · cases hs; exact List.mem_cons.mpr (Or.inl rfl)
    · rw [if_neg ht, List.nil_append]
      constructor
      · intro hc; exact Or.inl (List.mem_singleton.mp hc)
      · rintro (hc | ⟨hs, hm⟩)
        · subst hc; exact List.mem_singleton.mpr rfl
        · cases hs; exact absurd hm ht

/-- C5: a well-formed `/to T text` always records the message (with
`to_id = T`) in the store, and sends the message event to exactly the
sender plus — when `T` resolves to a live registered connection — that
target connection; never to any third connection. -/
theorem direct_message_audience (st : ServerState) (ws : Conn) (tcid text : Str) :
    (applyCmd st ws (.toCmd tcid text)).st.messages
      = st.messages ++
        [⟨st.next_id, text, none, (senderInfo st ws).1, (senderInfo st ws).2, some tcid, none⟩] ∧
    (applyCmd st ws (.toCmd tcid text)).sends
      = [⟨dmAudience st ws tcid,
          .message ⟨st.next_id, text, none, (senderInfo st ws).1, (senderInfo st ws).2,
            some tcid, none⟩⟩] ∧
    (∀ c : Conn, c ∈ dmAudience st ws tcid ↔
      (c = ws ∨ (alookup tcid st.id_to_ws = some c ∧ c ∈ st.clients))) :=
  ⟨rfl, rfl, fun c => mem_dmAudience st ws tcid c⟩

/-! ### C9: replying to a missing id is not validated -/

/-- C9: a well-formed `/reply n text` appends a new message with
`reply_to = n` and the fresh id `next_id` (never an id already in the
store), and broadcasts it — with no check at all that a message with id
`n` exists. -/
theorem reply_never_validated (st : ServerState) (ws : Conn) (rid : Int) (text : Str)
    (h : ∀ m ∈ st.messages, m.id < st.next_id) :
    (applyCmd st ws (.reply rid text)).st.messages
      = st.messages ++
        [⟨st.next_id, text, some rid, (senderInfo st ws).1, (senderInfo st ws).2, none, none⟩] ∧
    (∀ m ∈ st.messages, m.id ≠ st.next_id) ∧
    (applyCmd st ws (.reply rid text)).sends
      = [⟨st.clients,
          .message ⟨st.next_id, text, some rid, (senderInfo st ws).1, (senderInfo st ws).2,
            none, none⟩⟩] :=
  ⟨rfl, fun m hm => Nat.ne_of_lt (h m hm), rfl⟩

/-! ### C2: slash-prefixed lines that fail to parse -/

/-- C2 counterexample: `/foo hi` begins with a slash and is not a
well-formed instance of any recognized command, yet it is parsed as a
`PublicPost`: a message is appended to the store and broadcast to all
clients, instead of being swallowed as the claim states. -/
theorem slash_unrecognized_cex :
    startsWithL "/foo hi".toList "/".toList = true ∧
    parseLine "/foo hi".toList = .publicPost "/foo hi".toList ∧
    (handleLine stTwo 0 "/foo hi".toList).st.messages
      = stTwo.messages ++
        [⟨2, "/foo hi".toList, none, some "A-aa".toList, some "A".toList, none, none⟩] ∧
    (handleLine stTwo 0 "/foo hi".toList).sends
      = [⟨[0, 1],
          .message ⟨2, "/foo hi".toList, none, some "A-aa".toList, some "A".toList,
            none, none⟩⟩] := by
  decide

/-- C2 amended: a line that starts with one of the four argument-taking
command prefixes (`/delete `, `/reply `, `/temp `, `/to `, trailing space
included) is never treated as a `PublicPost`; when its specific parse
fails it is dropped — no store change, no broadcast, no reply.  (Lines
beginning with a slash but matching none of the recognized prefixes, such
as `/foo hi` or `/delete` without the trailing space, fall through to
`PublicPost`.) -/
theorem slash_prefixed_never_public (st : ServerState) (ws : Conn) (line : Str)
    (h : startsWithL line "/delete ".toList = true ∨ startsWithL line "/reply ".toList = true ∨
         startsWithL line "/temp ".toList = true ∨ startsWithL line "/to ".toList = true) :
    (parseLine line = .dropped → handleLine st ws line = ⟨st, [], false⟩) ∧
    (∀ t : Str, parseLine line ≠ .publicPost t) := by
  constructor
  · intro hp
    unfold handleLine
    rw [hp]
    rfl
  · intro t
    unfold parseLine
    repeat' split
    all_goals intro hx
    all_goals first
      | exact Cmd.noConfusion hx
      | (rcases h with h | h | h | h <;> simp_all)

/-- Witness for C2's amended claim at `/reply x hi` (non-numeric id):
prefix-matched, parse fails, line is dropped with no state change and is
not a public post. -/
theorem slash_prefixed_never_public_witness :
    handleLine stTwo 0 "/reply x hi".toList = ⟨stTwo, [], false⟩ ∧
    parseLine "/reply x hi".toList ≠ .publicPost "/reply x hi".toList :=
  ⟨(slash_prefixed_never_public stTwo 0 "/reply x hi".toList (by decide)).1 (by decide),
   (slash_prefixed_never_public stTwo 0 "/reply x hi".toList (by decide)).2 "/reply x hi".toList⟩

/-! ### C8: malformed commands are silently dropped -/

/-- The malformed-command shapes enumerated by the spec's error taxonomy:
`/delete` with a non-numeric (and non-`last`) argument, `/reply` with a
non-numeric id or missing text, `/temp` with non-numeric seconds or
missing text, `/to` with missing text — checked with the handler's own
prefix order and parsing primitives. -/
def malformedCmd (line : Str) : Bool :=
  if startsWithL line "/delete ".toList then
    if trimL (line.drop 8) = "last".toList then false
    else (pyInt (trimL (line.drop 8))).isNone
  else if startsWithL line "/reply ".toList then
    match split1 (trimL (line.drop 7)) with
    | [p0, _] => (pyInt p0).isNone
    | _ => true
  else if startsWithL line "/temp ".toList then
    match split1 (trimL (line.drop 6)) with
    | [p0, _] => (pyInt p0).isNone
    | _ => true
  else if startsWithL line "/to ".toList then
    match split1 (trimL (line.drop 4)) with
    | [_, _] => false
    | _ => true
  else false

theorem malformed_parse_dropped (line : Str) (h : malformedCmd line = true) :
    parseLine line = .dropped := by
  unfold malformedCmd at h
  unfold parseLine
  split at h
  case isTrue hc =>
    rw [if_pos hc]
    split at h
    case isTrue harg => simp at h
    case isFalse harg =>
      rw [if_neg harg]
      cases hpi : pyInt (trimL (List.drop 8 line)) with
      | none => rfl
      | some n => rw [hpi] at h; simp at h
  case isFalse hc =>
    rw [if_neg hc]
    split at h
    case isTrue hc2 =>
      rw [if_pos hc2]
      cases hs : split1 (trimL (List.drop 7 line)) with
      | nil => rfl
      | cons a l =>
        cases l with
        | nil => rfl
        | cons b l2 =>
          cases l2 with
          | nil =>
            rw [hs] at h
            replace h : (pyInt a).isNone = true := h
            show (match pyInt a with
              | some r => Cmd.reply r b
              | none => Cmd.dropped) = Cmd.dropped
            cases hpi : pyInt a with
            | none => rfl
            | some r => rw [hpi] at h; simp at h
          | cons c l3 => rfl
    case isFalse hc2 =>
      rw [if_neg hc2]
      split at h
      case isTrue hc3 =>
        rw [if_pos hc3]
        cases hs : split1 (trimL (List.drop 6 line)) with
        | nil => rfl
        | cons a l =>
          cases l with
          | nil => rfl
          | cons b l2 =>
            cases l2 with
            | nil =>
              rw [hs] at h
              replace h : (pyInt a).isNone = true := h
              show (match pyInt a with
                | some t => Cmd.temp t b
                | none => Cmd.dropped) = Cmd.dropped
              cases hpi : pyInt a with
              | none => rfl
              | some r => rw [hpi] at h; simp at h
            | cons c l3 => rfl
      case isFalse hc3 =>
        rw [if_neg hc3]
        split at h
        case isTrue hc4 =>
          rw [if_pos hc4]
          cases hs : split1 (trimL (List.drop 4 line)) with
          | nil => rfl
          | cons a l =>
            cases l with
            | nil => rfl
            | cons b l2 =>
              cases l2 with
              | nil => rw [hs] at h; simp at h
              | cons c l3 => rfl
        case isFalse hc4 => simp at h

/-- C8: every malformed command — `/delete` with a non-numeric argument,
`/reply` with a non-numeric id or missing text, `/temp` with non-numeric
seconds or missing text, `/to` with missing text — is silently dropped:
the entire server state (message store and session registry) is unchanged,
nothing is broadcast, and no error reply is sent to the issuing client. -/
theorem malformed_commands_silent (st : ServerState) (ws : Conn) (line : Str)
    (h : malformedCmd line = true) :
    handleLine st ws line = ⟨st, [], false⟩ := by
  unfold handleLine
  rw [malformed_parse_dropped line h]
  rfl

/-- Witness for C8 at one concrete line of each malformed kind. -/
theorem malformed_commands_silent_witness :
    handleLine stTwo 0 "/delete abc".toList = ⟨stTwo, [], false⟩ ∧
    handleLine stTwo 0 "/reply x hi".toList = ⟨stTwo, [], false⟩ ∧
    handleLine stTwo 0 "/reply 5".toList = ⟨stTwo, [], false⟩ ∧
    handleLine stTwo 0 "/temp x hi".toList = ⟨stTwo, [], false⟩ ∧
    handleLine stTwo 0 "/to B-bb".toList = ⟨stTwo, [], false⟩ :=
  ⟨malformed_commands_silent stTwo 0 _ (by decide),
   malformed_commands_silent stTwo 0 _ (by decide),
   malformed_commands_silent stTwo 0 _ (by decide),
   malformed_commands_silent stTwo 0 _ (by decide),
   malformed_commands_silent stTwo 0 _ (by decide)⟩

/-- Witness for C9: in `stTwo` no message with id 7 exists (only id 1 does),
yet `/reply 7 hi` creates and broadcasts a message with `reply_to = 7`. -/
theorem reply_never_validated_witness :
    (applyCmd stTwo 0 (.reply 7 "hi".toList)).st.messages
      = stTwo.messages ++
        [⟨stTwo.next_id, "hi".toList, some 7, (senderInfo stTwo 0).1, (senderInfo stTwo 0).2,
          none, none⟩] ∧
    (∀ m ∈ stTwo.messages, m.id ≠ stTwo.next_id) ∧
    (applyCmd stTwo 0 (.reply 7 "hi".toList)).sends
      = [⟨stTwo.clients,
          .message ⟨stTwo.next_id, "hi".toList, some 7, (senderInfo stTwo 0).1,
            (senderInfo stTwo 0).2, none, none⟩⟩] :=
  reply_never_validated stTwo 0 7 "hi".toList (by decide)

/-! ### C1: direct messages and the init snapshot -/

/-- A trace in which client `A-aa` (conn 0) sends a direct message to
`B-bb` (conn 1), after which a third client `C-cc` (conn 2) connects. -/
def c1ops : List SysOp :=
  [.conn 0 "A".toList "aa".toList, .conn 1 "B".toList "bb".toList,
   .line 0 "/to B-bb hi".toList, .conn 2 "C".toList "cc".toList]

/-- C1 counterexample: the claim extends direct-message privacy to the
`init` snapshot, but direct messages are stored in the global message log
and `init` sends the whole log.  In the trace `c1ops` the newly connected
conn 2 — neither the sender (conn 0, id `A-aa`) nor the target (conn 1,
id `B-bb`) — receives an `init` event containing the stored direct
message addressed to `B-bb`. -/
theorem dm_init_snapshot_leak_cex :
    validTrace initState c1ops = true ∧
    ((sysSends initState c1ops).any (fun s =>
      decide (s.recipients = [2]) &&
      (match s.event with
       | .initEv _ msgs _ => msgs.any (fun m => m.to_id == some "B-bb".toList)
       | _ => false))) = true ∧
    alookup "B-bb".toList (sysRun initState c1ops).id_to_ws = some 1 ∧
    alookup "A-aa".toList (sysRun initState c1ops).id_to_ws = some 0 := by
  decide

/-- The privacy property that does hold of every send a command handler
performs from state `st` on behalf of connection `ws`: a `message` event
whose message has `to_id = some t` goes only to `ws` itself or to the
connection `t` resolves to. -/
def sendsDMPrivate (ws : Conn) (st : ServerState) (l : List Send) : Prop :=
  ∀ s ∈ l, ∀ m : Msg, s.event = .message m → ∀ t : Str, m.to_id = some t →
    ∀ r ∈ s.recipients, r = ws ∨ alookup t st.id_to_ws = some r

theorem applyDelete_dm_private (st : ServerState) (ws : Conn) (tid : Int) :
    sendsDMPrivate ws st (applyDelete st tid).sends := by
  unfold applyDelete
  cases deleteFirstById st.messages tid with
  | none => intro s hs; exact absurd hs (List.not_mem_nil s)
  | some ms2 =>
    intro s hs m he
    rw [List.mem_singleton] at hs
    subst hs
    exact absurd he (fun hx => Event.noConfusion hx)

/-- C1 amended: at message-send time the claim holds — for every command,
every `message` event carrying a `to_id`-set message is delivered only to
the sender and the connection the target id resolves to, never to a third
connection.  (The message is nevertheless stored, and the `init` snapshot
sent to a later-connecting client includes it; see the counterexample.) -/
theorem dm_message_events_private (st : ServerState) (ws : Conn) (c : Cmd) :
    sendsDMPrivate ws st (applyCmd st ws c).sends := by
  cases c with
  | dropped => intro s hs; exact absurd hs (List.not_mem_nil s)
  | exitCmd => intro s hs; exact absurd hs (List.not_mem_nil s)
  | deleteById tid => exact applyDelete_dm_private st ws tid
  | deleteLast =>
    show sendsDMPrivate ws st
      (match st.messages.getLast? with
       | none => (⟨st, [], false⟩ : HandleOut)
       | some mm => applyDelete st (mm.id : Int)).sends
    cases st.messages.getLast? with
    | none => intro s hs; exact absurd hs (List.not_mem_nil s)
    | some mm => exact applyDelete_dm_private st ws (mm.id : Int)
  | reply rid text =>
    intro s hs m he t ht
    cases hs with
    | tail _ htl => exact absurd htl (List.not_mem_nil s)
    | head =>
      injection he with h
      subst h
      exact absurd ht (fun hx => Option.noConfusion hx)
  | temp ttl text =>
    intro s hs m he t ht
    cases hs with
    | tail _ htl => exact absurd htl (List.not_mem_nil s)
    | head =>
      injection he with h
      subst h
      exact absurd ht (fun hx => Option.noConfusion hx)
  | publicPost text =>
    intro s hs m he t ht
    cases hs with
    | tail _ htl => exact absurd htl (List.not_mem_nil s)
    | head =>
      injection he with h
      subst h
      exact absurd ht (fun hx => Option.noConfusion hx)
  | toCmd tc text =>
    intro s hs m he t ht r hr
    cases hs with
    | tail _ htl => exact absurd htl (List.not_mem_nil s)
    | head =>
      injection he with h
      subst h
      injection ht with h2
      subst h2
      rcases (mem_dmAudience st ws tc r).mp hr with h1 | ⟨h1, _⟩
      · exact Or.inl h1
      · exact Or.inr h1

/-- Witness for the amended C1, applied in `stTwo` to the direct message
`/to B-bb hi` from conn 0: recipient 1 is the resolved target. -/
theorem dm_message_events_private_witness :
    (1 : Conn) = 0 ∨ alookup "B-bb".toList stTwo.id_to_ws = some 1 :=
  dm_message_events_private stTwo 0 (.toCmd "B-bb".toList "hi".toList)
    ⟨dmAudience stTwo 0 "B-bb".toList,
     .message ⟨2, "hi".toList, none, some "A-aa".toList, some "A".toList,
       some "B-bb".toList, none⟩⟩
    (by decide) _ rfl _ rfl 1 (by decide)

/-! ### C10: deletion is not restricted to the author -/

/-- Number of stored messages carrying id `k`. -/
def msgIdCount (k : Nat) : List Msg → Nat
  | [] => 0
  | m :: rest => (if m.id = k then 1 else 0) + msgIdCount k rest

theorem deleteFirstById_count {ms : List Msg} {tid : Int} {ms2 : List Msg}
    (h : deleteFirstById ms tid = some ms2) (k : Nat) :
    msgIdCount k ms = msgIdCount k ms2 + (if (k : Int) = tid then 1 else 0) := by
  induction ms generalizing ms2 with
  | nil => exact Option.noConfusion h
  | cons m rest ih =>
    unfold deleteFirstById at h
    by_cases hm : (m.id : Int) = tid
    · rw [if_pos hm] at h
      cases h
      show (if m.id = k then 1 else 0) + msgIdCount k rest
        = msgIdCount k rest + (if (k : Int) = tid then 1 else 0)
      by_cases hk : (k : Int) = tid
      · have : m.id = k := by
          have := hm.trans hk.symm
          exact_mod_cast this
        rw [if_pos this, if_pos hk]
        omega
      · have : m.id ≠ k := by
          intro hx
          exact hk (by rw [← hx]; exact hm)
        rw [if_neg this, if_neg hk]
        omega
    · rw [if_neg hm] at h
      cases hrec : deleteFirstById rest tid with
      | none => rw [hrec] at h; exact Option.noConfusion h
      | some ms3 =>
        rw [hrec] at h
        cases h
        show (if m.id = k then 1 else 0) + msgIdCount k rest
          = (if m.id = k then 1 else 0) + msgIdCount k ms3 + (if (k : Int) = tid then 1 else 0)
        rw [ih hrec]
        omega

theorem msgIdCount_eq_zero {k : Nat} {ms : List Msg} (h : msgIdCount k ms = 0) :
    ∀ m ∈ ms, m.id ≠ k := by
  induction ms with
  | nil => intro m hm; exact absurd hm (List.not_mem_nil m)
  | cons m rest ih =>
    intro m2 hm2
    unfold msgIdCount at h
    rcases List.mem_cons.mp hm2 with rfl | hm2
    · intro hx; rw [if_pos hx] at h; omega
    · refine ih ?_ m2 hm2
      omega

theorem msgIdCount_eq_zero_of_all {k : Nat} {ms : List Msg}
    (h : ∀ m ∈ ms, m.id ≠ k) : msgIdCount k ms = 0 := by
  induction ms with
  | nil => rfl
  | cons a b ih =>
    show (if a.id = k then 1 else 0) + msgIdCount k b = 0
    rw [if_neg (h a (List.mem_cons_self a b))]
    simpa using ih (fun x hx => h x (List.mem_cons_of_mem a hx))

theorem nodup_ids_count_one {ms : List Msg} (hn : (ms.map Msg.id).Nodup) {m : Msg}
    (hm : m ∈ ms) : msgIdCount m.id ms = 1 := by
  induction ms with
  | nil => exact absurd hm (List.not_mem_nil m)
  | cons m0 rest ih =>
    rw [List.map_cons, List.nodup_cons] at hn
    rcases List.mem_cons.mp hm with rfl | hm2
    · show (if m.id = m.id then 1 else 0) + msgIdCount m.id rest = 1
      rw [if_pos rfl]
      have hz : msgIdCount m.id rest = 0 := by
        apply msgIdCount_eq_zero_of_all
        intro m2 hm2 hx
        exact hn.1 (hx ▸ List.mem_map_of_mem Msg.id hm2)
      omega
    · show (if m0.id = m.id then 1 else 0) + msgIdCount m.id rest = 1
      have : m0.id ≠ m.id := by
        intro hx
        exact hn.1 (hx ▸ List.mem_map_of_mem Msg.id hm2)
      rw [if_neg this]
      simpa using ih hn.2 hm2

theorem deleteFirstById_of_mem {ms : List Msg} {m : Msg} (hm : m ∈ ms) :
    ∃ ms2, deleteFirstById ms (m.id : Int) = some ms2 := by
  induction ms with
  | nil => exact absurd hm (List.not_mem_nil m)
  | cons m0 rest ih =>
    unfold deleteFirstById
    by_cases h0 : ((m0.id : Nat) : Int) = (m.id : Int)
    · exact ⟨rest, by rw [if_pos h0]⟩
    · rcases List.mem_cons.mp hm with rfl | hm2
      · exact absurd rfl h0
      · rcases ih hm2 with ⟨ms2, hms2⟩
        exact ⟨m0 :: ms2, by rw [if_neg h0, hms2]; rfl⟩

/-- C10: deletion is not restricted to a message's author.  For any
connected client `ws` and any stored message `m` — whoever posted it —
`/delete m.id` removes it from the store and broadcasts the delete event
to the full `clients` set, and `/delete last` behaves identically when
`m` is the most recent message. -/
theorem any_client_can_delete (st : ServerState) (ws : Conn) (m : Msg)
    (hm : m ∈ st.messages) (hn : (st.messages.map Msg.id).Nodup) :
    ∃ ms2, deleteFirstById st.messages (m.id : Int) = some ms2 ∧
      applyCmd st ws (.deleteById (m.id : Int)) =
        ⟨{ st with messages := ms2, temp_tasks := popKey (m.id : Int) st.temp_tasks },
         [⟨st.clients, .deleteEv (m.id : Int)⟩], false⟩ ∧
      m ∉ ms2 ∧
      (st.messages.getLast? = some m →
        applyCmd st ws .deleteLast = applyCmd st ws (.deleteById (m.id : Int))) := by
  rcases deleteFirstById_of_mem hm with ⟨ms2, hdel⟩
  refine ⟨ms2, hdel, ?_, ?_, ?_⟩
  · show applyDelete st (m.id : Int) = _
    unfold applyDelete
    rw [hdel]
  · intro hmem
    have h1 : msgIdCount m.id st.messages = 1 := nodup_ids_count_one hn hm
    have h2 := deleteFirstById_count hdel m.id
    rw [if_pos rfl] at h2
    have hz : msgIdCount m.id ms2 = 0 := by omega
    exact msgIdCount_eq_zero hz m hmem rfl
  · intro hL
    show (match st.messages.getLast? with
      | none => (⟨st, [], false⟩ : HandleOut)
      | some mm => applyDelete st (mm.id : Int)) = _
    rw [hL]
    rfl

/-- Witness for C10: in `stTwo`, client B (conn 1) deletes the message
with id 1 posted by client A. -/
theorem any_client_can_delete_witness :
    ∃ ms2, deleteFirstById stTwo.messages ((mA.id : Nat) : Int) = some ms2 ∧
      applyCmd stTwo 1 (.deleteById (mA.id : Int)) =
        ⟨{ stTwo with messages := ms2, temp_tasks := popKey (mA.id : Int) stTwo.temp_tasks },
         [⟨stTwo.clients, .deleteEv (mA.id : Int)⟩], false⟩ ∧
      mA ∉ ms2 ∧
      (stTwo.messages.getLast? = some mA →
        applyCmd stTwo 1 .deleteLast = applyCmd stTwo 1 (.deleteById (mA.id : Int))) :=
  any_client_can_delete stTwo 1 mA (by decide) (by decide)

/-! ### C4: monotonic message ids -/

theorem applyDelete_next_id (st : ServerState) (tid : Int) :
    (applyDelete st tid).st.next_id = st.next_id := by
  unfold applyDelete
  cases deleteFirstById st.messages tid <;> rfl

/-- Which commands allocate a message id (the four `mid = next_id;
next_id += 1` sites in server.py: reply, temp, direct message, public
post). -/
def cmdAssigns : Cmd → Bool
  | .reply _ _ => true
  | .temp _ _ => true
  | .toCmd _ _ => true
  | .publicPost _ => true
  | _ => false

/-- The ids a single step assigns (one per message-creating command,
none otherwise). -/
def stepAssigned (st : ServerState) : SysOp → List Nat
  | .line _ s => if cmdAssigns (parseLine s) then [st.next_id] else []
  | _ => []

/-- All ids assigned over a run, in assignment order. -/
def traceAssigned (st : ServerState) : List SysOp → List Nat
  | [] => []
  | op :: ops => stepAssigned st op ++ traceAssigned (sysStep st op).1 ops

theorem sysStep_next_id (st : ServerState) (op : SysOp) :
    ((sysStep st op).1).next_id = st.next_id + (stepAssigned st op).length := by
  cases op with
  | conn ws name short => rfl
  | disc ws =>
    show (disconnectState st ws).next_id = st.next_id + 0
    unfold disconnectState
    cases alookup ws st.clients_info <;> rfl
  | prune ws =>
    show (pruneOut st ws).1.next_id = st.next_id + 0
    unfold pruneOut
    by_cases h : (alookup ws st.clients_info).isSome
    · rw [if_pos h]
      unfold disconnectState
      cases alookup ws st.clients_info <;> rfl
    · rw [if_neg h]
      unfold disconnectState
      cases alookup ws st.clients_info <;> rfl
  | fire mid =>
    show (fireTimer st mid).1.next_id = st.next_id + 0
    unfold fireTimer
    cases deleteFirstById st.messages (mid : Int) <;> rfl
  | line ws s =>
    show (applyCmd st ws (parseLine s)).st.next_id
      = st.next_id + (if cmdAssigns (parseLine s) then [st.next_id] else []).length
    cases parseLine s with
    | deleteLast =>
      show (match st.messages.getLast? with
        | none => (⟨st, [], false⟩ : HandleOut)
        | some mm => applyDelete st (mm.id : Int)).st.next_id = st.next_id + 0
      cases st.messages.getLast? with
      | none => rfl
      | some mm => exact applyDelete_next_id st (mm.id : Int)
    | deleteById tid => exact applyDelete_next_id st tid
    | dropped => rfl
    | exitCmd => rfl
    | reply rid text => rfl
    | temp ttl text => rfl
    | toCmd tc text => rfl
    | publicPost text => rfl

theorem stepAssigned_shape (st : ServerState) (op : SysOp) :
    stepAssigned st op = [] ∨ stepAssigned st op = [st.next_id] := by
  cases op with
  | line ws s =>
    show (if cmdAssigns (parseLine s) then [st.next_id] else []) = []
      ∨ (if cmdAssigns (parseLine s) then [st.next_id] else []) = [st.next_id]
    by_cases h : cmdAssigns (parseLine s) = true
    · rw [if_pos h]; exact Or.inr rfl
    · rw [if_neg h]; exact Or.inl rfl
  | conn ws name short => exact Or.inl rfl
  | disc ws => exact Or.inl rfl
  | prune ws => exact Or.inl rfl
  | fire mid => exact Or.inl rfl

theorem traceAssigned_range' (ops : List SysOp) : ∀ st : ServerState,
    ∃ n : Nat, traceAssigned st ops = List.range' st.next_id n := by
  induction ops with
  | nil => intro st; exact ⟨0, rfl⟩
  | cons op ops ih =>
    intro st
    rcases ih (sysStep st op).1 with ⟨n, hn⟩
    have hstep := sysStep_next_id st op
    rcases stepAssigned_shape st op with h | h
    · refine ⟨n, ?_⟩
      show stepAssigned st op ++ traceAssigned (sysStep st op).1 ops = _
      rw [h] at hstep
      simp at hstep
      rw [h, List.nil_append, hn, hstep]
    · refine ⟨n + 1, ?_⟩
      show stepAssigned st op ++ traceAssigned (sysStep st op).1 ops = _
      rw [h] at hstep
      simp at hstep
      rw [h, hn, hstep, List.range'_succ, List.singleton_append]

/-- C4: over every possible run of the server from startup, the ids
assigned to new messages — in assignment order, regardless of interleaved
deletions and other operations — are strictly increasing (each new id
exceeds every previously assigned one), never reused, and the very first
assigned id is 1. -/
theorem monotonic_ids (ops : List SysOp) :
    (traceAssigned initState ops).Pairwise (· < ·) ∧
    (traceAssigned initState ops).Nodup ∧
    ((traceAssigned initState ops).head? = some 1 ∨ traceAssigned initState ops = []) := by
  rcases traceAssigned_range' ops initState with ⟨n, hn⟩
  have h1 : initState.next_id = 1 := rfl
  rw [h1] at hn
  refine ⟨?_, ?_, ?_⟩
  · rw [hn]; exact List.pairwise_lt_range' 1 n 1 (by omega)
  · rw [hn]; exact (List.pairwise_lt_range' 1 n 1 (by omega)).imp (fun h => Nat.ne_of_lt h)
  · cases n with
    | zero => exact Or.inr hn
    | succ k =>
      rw [hn, List.range'_succ]
      exact Or.inl rfl

/-! ### C3: registry consistency -/

/-- An association list with pairwise distinct keys (what a Python dict
guarantees by construction). -/
def NodupKeys {α β : Type} [DecidableEq α] (l : List (α × β)) : Prop :=
  (l.map Prod.fst).Nodup

/-- Mutual consistency of the two registry dicts: every registered
connection's id maps back to that connection, and every id-to-connection
entry points to a connection registered under that id (no orphan in
either direction). -/
def Consistent (st : ServerState) : Prop :=
  (∀ p ∈ st.clients_info, alookup p.2.id st.id_to_ws = some p.1) ∧
  (∀ q ∈ st.id_to_ws, (alookup q.2 st.clients_info).map ClientInfo.id = some q.1)

instance (st : ServerState) : Decidable (Consistent st) := by
  unfold Consistent; infer_instance

theorem alookup_cons {α β : Type} [DecidableEq α] (a : α) (b : β)
    (rest : List (α × β)) (k : α) :
    alookup k ((a, b) :: rest) = if a = k then some b else alookup k rest := rfl

theorem aupdate_cons {α β : Type} [DecidableEq α] (a : α) (b : β)
    (rest : List (α × β)) (k : α) (v : β) :
    aupdate k v ((a, b) :: rest)
      = if a = k then (k, v) :: rest else (a, b) :: aupdate k v rest := rfl

theorem aremove_cons {α β : Type} [DecidableEq α] (a : α) (b : β)
    (rest : List (α × β)) (r : α) :
    aremove r ((a, b) :: rest) = if a = r then rest else (a, b) :: aremove r rest := rfl

theorem aupdate_eq_append {α β : Type} [DecidableEq α] {k : α} {v : β}
    {l : List (α × β)} (h : alookup k l = none) : aupdate k v l = l ++ [(k, v)] := by
  induction l with
  | nil => rfl
  | cons p rest ih =>
    obtain ⟨a, b⟩ := p
    rw [alookup_cons] at h
    by_cases ha : a = k
    · rw [if_pos ha] at h; exact Option.noConfusion h
    · rw [if_neg ha] at h
      rw [aupdate_cons, if_neg ha, ih h, List.cons_append]

theorem alookup_append_left {α β : Type} [DecidableEq α] {k : α} {v : β}
    {l t : List (α × β)} (h : alookup k l = some v) : alookup k (l ++ t) = some v := by
  induction l with
  | nil => exact Option.noConfusion h
  | cons p rest ih =>
    obtain ⟨a, b⟩ := p
    rw [alookup_cons] at h
    rw [List.cons_append, alookup_cons]
    by_cases ha : a = k
    · rw [if_pos ha] at h ⊢; exact h
    · rw [if_neg ha] at h ⊢; exact ih h

theorem alookup_append_right {α β : Type} [DecidableEq α] {k : α}
    {l t : List (α × β)} (h : alookup k l = none) : alookup k (l ++ t) = alookup k t := by
  induction l with
  | nil => rfl
  | cons p rest ih =>
    obtain ⟨a, b⟩ := p
    rw [alookup_cons] at h
    rw [List.cons_append, alookup_cons]
    by_cases ha : a = k
    · rw [if_pos ha] at h; exact Option.noConfusion h
    · rw [if_neg ha] at h
      rw [if_neg ha]
      exact ih h

theorem alookup_aremove_ne {α β : Type} [DecidableEq α] {k r : α}
    {l : List (α × β)} (h : k ≠ r) : alookup k (aremove r l) = alookup k l := by
  induction l with
  | nil => rfl
  | cons p rest ih =>
    obtain ⟨a, b⟩ := p
    rw [aremove_cons]
    by_cases ha : a = r
    · rw [if_pos ha]
      have hak : ¬ a = k := by
        intro hx
        rw [hx] at ha
        exact h ha
      rw [alookup_cons, if_neg hak]
    · rw [if_neg ha]
      rw [alookup_cons, alookup_cons]
      by_cases hk : a = k
      · rw [if_pos hk, if_pos hk]
      · rw [if_neg hk, if_neg hk]
        exact ih

theorem mem_of_mem_aremove {α β : Type} [DecidableEq α] {r : α}
    {l : List (α × β)} {p : α × β} (h : p ∈ aremove r l) : p ∈ l := by
  induction l with
  | nil => exact absurd h (List.not_mem_nil p)
  | cons q rest ih =>
    obtain ⟨a, b⟩ := q
    rw [aremove_cons] at h
    by_cases hq : a = r
    · rw [if_pos hq] at h
      exact List.mem_cons_of_mem (a, b) h
    · rw [if_neg hq] at h
      rcases List.mem_cons.mp h with rfl | h2
      · exact List.mem_cons_self _ rest
      · exact List.mem_cons_of_mem (a, b) (ih h2)

theorem mem_aremove_of_nodup {α β : Type} [DecidableEq α] {r : α}
    {l : List (α × β)} (hn : NodupKeys l) {p : α × β} (h : p ∈ aremove r l) :
    p ∈ l ∧ p.1 ≠ r := by
  refine ⟨mem_of_mem_aremove h, ?_⟩
  induction l with
  | nil => exact absurd h (List.not_mem_nil p)
  | cons q rest ih =>
    obtain ⟨a, b⟩ := q
    have hn1 : a ∉ rest.map Prod.fst := by
      unfold NodupKeys at hn
      rw [List.map_cons, List.nodup_cons] at hn
      exact hn.1
    have hn2 : NodupKeys rest := by
      unfold NodupKeys at hn
      rw [List.map_cons, List.nodup_cons] at hn
      exact hn.2
    rw [aremove_cons] at h
    by_cases hq : a = r
    · rw [if_pos hq] at h
      intro hx
      apply hn1
      rw [hq, ← hx]
      exact List.mem_map_of_mem Prod.fst h
    · rw [if_neg hq] at h
      rcases List.mem_cons.mp h with rfl | h2
      · exact hq
      · exact ih hn2 h2

theorem alookup_mem {α β : Type} [DecidableEq α] {k : α} {v : β}
    {l : List (α × β)} (h : alookup k l = some v) : (k, v) ∈ l := by
  induction l with
  | nil => exact Option.noConfusion h
  | cons p rest ih =>
    obtain ⟨a, b⟩ := p
    rw [alookup_cons] at h
    by_cases ha : a = k
    · rw [if_pos ha] at h
      cases h
      subst ha
      exact List.mem_cons_self _ rest
    · rw [if_neg ha] at h
      exact List.mem_cons_of_mem _ (ih h)

theorem mem_keys_aupdate {α β : Type} [DecidableEq α] {x k : α} {v : β}
    {l : List (α × β)} :
    x ∈ (aupdate k v l).map Prod.fst ↔ x = k ∨ x ∈ l.map Prod.fst := by
  induction l with
  | nil =>
    show x ∈ [k] ↔ x = k ∨ x ∈ ([] : List α)
    rw [List.mem_singleton]
    simp
  | cons p rest ih =>
    obtain ⟨a, b⟩ := p
    rw [aupdate_cons]
    by_cases ha : a = k
    · rw [if_pos ha]
      subst ha
      show x ∈ a :: rest.map Prod.fst ↔ x = a ∨ x ∈ a :: rest.map Prod.fst
      rw [List.mem_cons]
      tauto
    · rw [if_neg ha]
      show x ∈ a :: (aupdate k v rest).map Prod.fst
        ↔ x = k ∨ x ∈ a :: rest.map Prod.fst
      rw [List.mem_cons, List.mem_cons, ih]
      tauto

theorem nodupKeys_aupdate {α β : Type} [DecidableEq α] {k : α} {v : β}
    {l : List (α × β)} (hn : NodupKeys l) : NodupKeys (aupdate k v l) := by
  induction l with
  | nil => exact List.nodup_singleton k
  | cons p rest ih =>
    obtain ⟨a, b⟩ := p
    have hn1 : a ∉ rest.map Prod.fst := by
      unfold NodupKeys at hn
      rw [List.map_cons, List.nodup_cons] at hn
      exact hn.1
    have hn2 : NodupKeys rest := by
      unfold NodupKeys at hn
      rw [List.map_cons, List.nodup_cons] at hn
      exact hn.2
    unfold NodupKeys
    rw [aupdate_cons]
    by_cases ha : a = k
    · rw [if_pos ha]
      rw [List.map_cons, List.nodup_cons]
      exact ⟨ha ▸ hn1, hn2⟩
    · rw [if_neg ha]
      rw [List.map_cons, List.nodup_cons]
      refine ⟨?_, ih hn2⟩
      intro hx
      rcases mem_keys_aupdate.mp hx with rfl | hx2
      · exact ha rfl
      · exact hn1 hx2

theorem nodupKeys_aremove {α β : Type} [DecidableEq α] {r : α}
    {l : List (α × β)} (hn : NodupKeys l) : NodupKeys (aremove r l) := by
  induction l with
  | nil => exact List.nodup_nil
  | cons p rest ih =>
    obtain ⟨a, b⟩ := p
    have hn1 : a ∉ rest.map Prod.fst := by
      unfold NodupKeys at hn
      rw [List.map_cons, List.nodup_cons] at hn
      exact hn.1
    have hn2 : NodupKeys rest := by
      unfold NodupKeys at hn
      rw [List.map_cons, List.nodup_cons] at hn
      exact hn.2
    unfold NodupKeys
    rw [aremove_cons]
    by_cases hq : a = r
    · rw [if_pos hq]
      exact hn2
    · rw [if_neg hq]
      rw [List.map_cons, List.nodup_cons]
      refine ⟨?_, ih hn2⟩
      intro hx
      rcases List.mem_map.mp hx with ⟨q, hq2, hq3⟩
      apply hn1
      show (a, b).1 ∈ rest.map Prod.fst
      rw [← hq3]
      exact List.mem_map_of_mem Prod.fst (mem_of_mem_aremove hq2)

/-- The registry invariant: both dicts have distinct keys (automatic for
Python dicts) and are mutually consistent. -/
def RegInv (st : ServerState) : Prop :=
  NodupKeys st.clients_info ∧ NodupKeys st.id_to_ws ∧ Consistent st

theorem regInv_of_eq {st st2 : ServerState}
    (h1 : st2.clients_info = st.clients_info) (h2 : st2.id_to_ws = st.id_to_ws)
    (hinv : RegInv st) : RegInv st2 := by
  unfold RegInv NodupKeys Consistent at hinv ⊢
  rw [h1, h2]
  exact hinv

theorem regInv_connect {st : ServerState} {ws : Conn} {name short : Str}
    (hinv : RegInv st)
    (hws : alookup ws st.clients_info = none)
    (hid : alookup (mkClientId name short) st.id_to_ws = none) :
    RegInv (connectState st ws name short) := by
  have hn1 := hinv.1
  have hn2 := hinv.2.1
  have hc1 := hinv.2.2.1
  have hc2 := hinv.2.2.2
  refine ⟨nodupKeys_aupdate hn1, nodupKeys_aupdate hn2, ?_, ?_⟩
  · intro p hp
    rw [show (connectState st ws name short).clients_info
        = aupdate ws ⟨mkClientId name short, name⟩ st.clients_info from rfl,
      aupdate_eq_append hws] at hp
    rw [show (connectState st ws name short).id_to_ws
        = aupdate (mkClientId name short) ws st.id_to_ws from rfl,
      aupdate_eq_append hid]
    rcases List.mem_append.mp hp with hp1 | hp1
    · exact alookup_append_left (hc1 p hp1)
    · rw [List.mem_singleton.mp hp1]
      rw [alookup_append_right hid]
      show (if mkClientId name short = mkClientId name short then some ws else none)
        = some ws
      rw [if_pos rfl]
  · intro q hq
    rw [show (connectState st ws name short).id_to_ws
        = aupdate (mkClientId name short) ws st.id_to_ws from rfl,
      aupdate_eq_append hid] at hq
    rw [show (connectState st ws name short).clients_info
        = aupdate ws ⟨mkClientId name short, name⟩ st.clients_info from rfl,
      aupdate_eq_append hws]
    rcases List.mem_append.mp hq with hq1 | hq1
    · have hold := hc2 q hq1
      cases hx0 : alookup q.2 st.clients_info with
      | none => rw [hx0] at hold; exact Option.noConfusion hold
      | some ci0 =>
        rw [hx0] at hold
        rw [alookup_append_left hx0]
        exact hold
    · rw [List.mem_singleton.mp hq1]
      rw [alookup_append_right hws]
      show (Option.map ClientInfo.id
        (if ws = ws then some ⟨mkClientId name short, name⟩ else none)) = _
      rw [if_pos rfl]
      rfl

theorem regInv_disconnect {st : ServerState} (ws : Conn)
    (hinv : RegInv st) : RegInv (disconnectState st ws) := by
  have hn1 := hinv.1
  have hn2 := hinv.2.1
  have hc1 := hinv.2.2.1
  have hc2 := hinv.2.2.2
  unfold disconnectState
  cases h : alookup ws st.clients_info with
  | none => exact hinv
  | some info0 =>
    refine ⟨nodupKeys_aremove hn1, nodupKeys_aremove hn2, ?_, ?_⟩
    · intro p hp
      obtain ⟨hpl, hpw⟩ := mem_aremove_of_nodup hn1 hp
      have hpid : p.2.id ≠ info0.id := by
        intro hx
        have h1 := hc1 p hpl
        have h2 := hc1 (ws, info0) (alookup_mem h)
        rw [hx] at h1
        rw [h1] at h2
        exact hpw (Option.some.inj h2)
      rw [alookup_aremove_ne hpid]
      exact hc1 p hpl
    · intro q hq
      obtain ⟨hql, hqi⟩ := mem_aremove_of_nodup hn2 hq
      have hqw : q.2 ≠ ws := by
        intro hx
        have h1 := hc2 q hql
        rw [hx, h] at h1
        have h1b : some info0.id = some q.1 := h1
        exact hqi (Option.some.inj h1b).symm
      rw [alookup_aremove_ne hqw]
      exact hc2 q hql

theorem pruneOut_fst (st : ServerState) (ws : Conn) :
    (pruneOut st ws).1 = disconnectState st ws := by
  unfold pruneOut
  by_cases h : (alookup ws st.clients_info).isSome
  · rw [if_pos h]
  · rw [if_neg h]

theorem applyDelete_registry (st : ServerState) (tid : Int) :
    (applyDelete st tid).st.clients_info = st.clients_info ∧
    (applyDelete st tid).st.id_to_ws = st.id_to_ws := by
  unfold applyDelete
  cases deleteFirstById st.messages tid <;> exact ⟨rfl, rfl⟩

theorem applyCmd_registry (st : ServerState) (ws : Conn) (c : Cmd) :
    (applyCmd st ws c).st.clients_info = st.clients_info ∧
    (applyCmd st ws c).st.id_to_ws = st.id_to_ws := by
  cases c with
  | deleteLast =>
    show ((match st.messages.getLast? with
      | none => (⟨st, [], false⟩ : HandleOut)
      | some mm => applyDelete st (mm.id : Int)).st.clients_info = st.clients_info) ∧
      ((match st.messages.getLast? with
      | none => (⟨st, [], false⟩ : HandleOut)
      | some mm => applyDelete st (mm.id : Int)).st.id_to_ws = st.id_to_ws)
    cases st.messages.getLast? with
    | none => exact ⟨rfl, rfl⟩
    | some mm => exact applyDelete_registry st (mm.id : Int)
  | deleteById tid => exact applyDelete_registry st tid
  | dropped => exact ⟨rfl, rfl⟩
  | exitCmd => exact ⟨rfl, rfl⟩
  | reply rid text => exact ⟨rfl, rfl⟩
  | temp ttl text => exact ⟨rfl, rfl⟩
  | toCmd tc text => exact ⟨rfl, rfl⟩
  | publicPost text => exact ⟨rfl, rfl⟩

theorem fireTimer_registry (st : ServerState) (mid : Nat) :
    (fireTimer st mid).1.clients_info = st.clients_info ∧
    (fireTimer st mid).1.id_to_ws = st.id_to_ws := by
  unfold fireTimer
  cases deleteFirstById st.messages (mid : Int) <;> exact ⟨rfl, rfl⟩

theorem regInv_sysStep {st : ServerState} {op : SysOp}
    (hinv : RegInv st) (hv : opValid st op = true) (hf : opFreshId st op = true) :
    RegInv (sysStep st op).1 := by
  cases op with
  | conn ws name short =>
    have hws : alookup ws st.clients_info = none := by
      have h2 := (Bool.and_eq_true _ _).mp hv
      exact Option.isNone_iff_eq_none.mp h2.1
    have hid : alookup (mkClientId name short) st.id_to_ws = none :=
      Option.isNone_iff_eq_none.mp hf
    exact regInv_connect hinv hws hid
  | disc ws => exact regInv_disconnect ws hinv
  | prune ws =>
    rw [show (sysStep st (.prune ws)).1 = (pruneOut st ws).1 from rfl, pruneOut_fst]
    exact regInv_disconnect ws hinv
  | line ws s =>
    have h := applyCmd_registry st ws (parseLine s)
    exact regInv_of_eq h.1 h.2 hinv
  | fire mid =>
    have h := fireTimer_registry st mid
    exact regInv_of_eq h.1 h.2 hinv

theorem regInv_run : ∀ (ops : List SysOp) (st : ServerState), RegInv st →
    validTrace st ops = true → freshIds st ops = true → RegInv (sysRun st ops) := by
  intro ops
  induction ops with
  | nil => intro st hinv _ _; exact hinv
  | cons op ops ih =>
    intro st hinv hv hf
    have hv2 := (Bool.and_eq_true _ _).mp hv
    have hf2 := (Bool.and_eq_true _ _).mp hf
    exact ih (sysStep st op).1 (regInv_sysStep hinv hv2.1 hf2.1) hv2.2 hf2.2

/-- The C3 counterexample trace: two connections draw the identical
random name `User123` and uuid prefix `abc123` (both within the source's
generation format), so both register under the id `User123-abc123`. -/
def c3ops : List SysOp :=
  [.conn 0 "User123".toList "abc123".toList, .conn 1 "User123".toList "abc123".toList]

/-- C3 counterexample: the claim quantifies over all outcomes of the
random id generation, but on an id collision `id_to_ws[client_id] = ws`
overwrites the first connection's entry: conn 0 stays registered in
`clients_info` while its id now maps to conn 1, so the two mappings are
no longer mutually consistent. -/
theorem registry_collision_cex :
    validTrace initState c3ops = true ∧
    ¬ Consistent (sysRun initState c3ops) := by decide

/-- C3 amended: for every sequence of connects, disconnects,
dead-connection prunes (and any other server steps), *provided each
registration draws an id distinct from every currently registered id*,
the two registry mappings stay mutually consistent — every registered
connection's id maps back to that connection and every id entry has a
matching registration. -/
theorem registry_consistent (ops : List SysOp)
    (hv : validTrace initState ops = true)
    (hf : freshIds initState ops = true) :
    Consistent (sysRun initState ops) :=
  (regInv_run ops initState ⟨List.nodup_nil, List.nodup_nil, by decide⟩ hv hf).2.2

/-- Witness for the amended C3 on a concrete trace: connect `A-aa`,
connect `B-bb`, disconnect the first, then prune the second. -/
theorem registry_consistent_witness :
    Consistent (sysRun initState [.conn 0 "A".toList "aa".toList,
      .conn 1 "B".toList "bb".toList, .disc 0, .prune 1]) :=
  registry_consistent _ (by decide) (by decide)

/-! ### C6: exactly one delete event per timed post -/

/-- Number of `delete` events for id `mid` in a list of sends. -/
def countDel (mid : Nat) : List Send → Nat
  | [] => 0
  | s :: rest =>
    (match s.event with
     | .deleteEv i => if i = (mid : Int) then 1 else 0
     | _ => 0) + countDel mid rest

theorem countDel_append (mid : Nat) (l1 l2 : List Send) :
    countDel mid (l1 ++ l2) = countDel mid l1 + countDel mid l2 := by
  induction l1 with
  | nil =>
    show countDel mid l2 = 0 + countDel mid l2
    omega
  | cons s rest ih =>
    show (match s.event with
       | .deleteEv i => if i = (mid : Int) then 1 else 0
       | _ => 0) + countDel mid (rest ++ l2) = _
    rw [ih]
    show _ = ((match s.event with
       | .deleteEv i => if i = (mid : Int) then 1 else 0
       | _ => 0) + countDel mid rest) + countDel mid l2
    omega

theorem msgIdCount_append (k : Nat) (l1 l2 : List Msg) :
    msgIdCount k (l1 ++ l2) = msgIdCount k l1 + msgIdCount k l2 := by
  induction l1 with
  | nil =>
    show msgIdCount k l2 = 0 + msgIdCount k l2
    omega
  | cons m rest ih =>
    show (if m.id = k then 1 else 0) + msgIdCount k (rest ++ l2)
      = ((if m.id = k then 1 else 0) + msgIdCount k rest) + msgIdCount k l2
    rw [ih]
    omega

theorem mem_popKey {x k : Int} {l : List Int} : x ∈ popKey k l ↔ x ∈ l ∧ x ≠ k := by
  unfold popKey
  rw [List.mem_filter]
  rw [decide_eq_true_eq]

theorem mem_addKey {x k : Int} {l : List Int} : x ∈ addKey k l ↔ x ∈ l ∨ x = k := by
  unfold addKey
  by_cases h : k ∈ l
  · rw [if_pos h]
    constructor
    · exact Or.inl
    · rintro (h1 | rfl)
      · exact h1
      · exact h
  · rw [if_neg h]
    rw [List.mem_append, List.mem_singleton]

theorem mem_of_deleteFirstById {ms : List Msg} {tid : Int} {ms2 : List Msg}
    (h : deleteFirstById ms tid = some ms2) {m : Msg} (hm : m ∈ ms2) : m ∈ ms := by
  induction ms generalizing ms2 with
  | nil => exact Option.noConfusion h
  | cons m0 rest ih =>
    unfold deleteFirstById at h
    by_cases h0 : (m0.id : Int) = tid
    · rw [if_pos h0] at h
      cases h
      exact List.mem_cons_of_mem m0 hm
    · rw [if_neg h0] at h
      cases hrec : deleteFirstById rest tid with
      | none => rw [hrec] at h; exact Option.noConfusion h
      | some ms3 =>
        rw [hrec] at h
        cases h
        rcases List.mem_cons.mp hm with rfl | hm2
        · exact List.mem_cons_self _ _
        · exact List.mem_cons_of_mem m0 (ih hrec hm2)

/-- The lifecycle invariant of one timed post with id `mid`, as a function
of the number `cnt` of `delete` events broadcast for `mid` so far: either
no delete event has happened yet and the message (exactly one copy) and
its pending timer are both alive, or exactly one delete event happened
and both are gone.  Ids stay bounded by `next_id` so `mid` is never
reallocated. -/
def TempPhase (mid cnt : Nat) (st : ServerState) : Prop :=
  (∀ m ∈ st.messages, m.id < st.next_id) ∧ mid < st.next_id ∧
  ((cnt = 0 ∧ msgIdCount mid st.messages = 1 ∧ (mid : Int) ∈ st.temp_tasks) ∨
   (cnt = 1 ∧ msgIdCount mid st.messages = 0 ∧ (mid : Int) ∉ st.temp_tasks))

theorem tempPhase_of_eq {mid cnt : Nat} {st st2 : ServerState}
    (h1 : st2.messages = st.messages) (h2 : st2.next_id = st.next_id)
    (h3 : st2.temp_tasks = st.temp_tasks) (hp : TempPhase mid cnt st) :
    TempPhase mid cnt st2 := by
  unfold TempPhase at hp ⊢
  rw [h1, h2, h3]
  exact hp

theorem disconnectState_core (st : ServerState) (ws : Conn) :
    (disconnectState st ws).messages = st.messages ∧
    (disconnectState st ws).next_id = st.next_id ∧
    (disconnectState st ws).temp_tasks = st.temp_tasks := by
  unfold disconnectState
  cases alookup ws st.clients_info <;> exact ⟨rfl, rfl, rfl⟩

theorem fireTimer_eq_applyDelete (st : ServerState) (mid : Nat) :
    fireTimer st mid = ((applyDelete st (mid : Int)).st, (applyDelete st (mid : Int)).sends) := by
  unfold fireTimer applyDelete
  cases deleteFirstById st.messages (mid : Int) <;> rfl

theorem tempPhase_applyDelete {mid cnt : Nat} {st : ServerState} (tid : Int)
    (hp : TempPhase mid cnt st) :
    TempPhase mid (cnt + countDel mid (applyDelete st tid).sends) (applyDelete st tid).st := by
  unfold applyDelete
  cases hdel : deleteFirstById st.messages tid with
  | none =>
    show TempPhase mid (cnt + countDel mid ([] : List Send)) st
    rw [show countDel mid ([] : List Send) = 0 from rfl, Nat.add_zero]
    exact hp
  | some ms2 =>
    have hcount := deleteFirstById_count hdel mid
    have hsub : ∀ m ∈ ms2, m ∈ st.messages := fun m hm => mem_of_deleteFirstById hdel hm
    show TempPhase mid (cnt + countDel mid [⟨st.clients, .deleteEv tid⟩])
      { st with messages := ms2, temp_tasks := popKey tid st.temp_tasks }
    obtain ⟨hids, hmid, hph⟩ := hp
    by_cases htid : tid = (mid : Int)
    · subst htid
      rw [if_pos rfl] at hcount
      have hcd1 : countDel mid [(⟨st.clients, .deleteEv ((mid : Nat) : Int)⟩ : Send)] = 1 := by
        show (if ((mid : Nat) : Int) = ((mid : Nat) : Int) then 1 else 0) + 0 = 1
        rw [if_pos rfl]
      rw [hcd1]
      rcases hph with ⟨hc0, hcnt1, htk⟩ | ⟨hc1, hcnt0, htk⟩
      · refine ⟨fun m hm => hids m (hsub m hm), hmid, Or.inr ⟨by omega, ?_, ?_⟩⟩
        · show msgIdCount mid ms2 = 0
          omega
        · intro hx
          have hx2 : ((mid : Nat) : Int) ∈ popKey ((mid : Nat) : Int) st.temp_tasks := hx
          exact (mem_popKey.mp hx2).2 rfl
      · rw [hcnt0] at hcount
        exact absurd hcount (by omega)
    · have hcd0 : countDel mid [(⟨st.clients, .deleteEv tid⟩ : Send)] = 0 := by
        show (if tid = ((mid : Nat) : Int) then 1 else 0) + 0 = 0
        rw [if_neg htid]
      rw [hcd0, Nat.add_zero]
      rw [if_neg (fun hx => htid (Eq.symm hx))] at hcount
      refine ⟨fun m hm => hids m (hsub m hm), hmid, ?_⟩
      rcases hph with ⟨hc0, hcnt1, htk⟩ | ⟨hc1, hcnt0, htk⟩
      · refine Or.inl ⟨hc0, ?_, ?_⟩
        · show msgIdCount mid ms2 = 1
          omega
        · show (mid : Int) ∈ popKey tid st.temp_tasks
          rw [mem_popKey]
          exact ⟨htk, fun hx => htid (Eq.symm hx)⟩
      · refine Or.inr ⟨hc1, ?_, ?_⟩
        · show msgIdCount mid ms2 = 0
          omega
        · intro hx
          have hx2 : (mid : Int) ∈ popKey tid st.temp_tasks := hx
          exact htk (mem_popKey.mp hx2).1

theorem tempPhase_post {mid cnt : Nat} {st st2 : ServerState} (hp : TempPhase mid cnt st)
    (m : Msg) (hid : m.id = st.next_id)
    (hmsg : st2.messages = st.messages ++ [m])
    (hnext : st2.next_id = st.next_id + 1)
    (htask : (mid : Int) ∈ st2.temp_tasks ↔ (mid : Int) ∈ st.temp_tasks) :
    TempPhase mid cnt st2 := by
  obtain ⟨hids, hmid, hph⟩ := hp
  have hne : m.id ≠ mid := by
    rw [hid]
    exact fun hx => absurd (hx ▸ hmid) (Nat.lt_irrefl _)
  have hcnt : msgIdCount mid st2.messages = msgIdCount mid st.messages := by
    rw [hmsg, msgIdCount_append]
    show _ + ((if m.id = mid then 1 else 0) + 0) = _
    rw [if_neg hne]
    omega
  refine ⟨?_, ?_, ?_⟩
  · intro m2 hm2
    rw [hmsg] at hm2
    rw [hnext]
    rcases List.mem_append.mp hm2 with h1 | h1
    · exact Nat.lt_succ_of_lt (hids m2 h1)
    · rw [List.mem_singleton.mp h1, hid]
      exact Nat.lt_succ_self _
  · rw [hnext]
    exact Nat.lt_succ_of_lt hmid
  · rcases hph with ⟨hc0, hcnt1, htk⟩ | ⟨hc1, hcnt0, htk⟩
    · exact Or.inl ⟨hc0, by rw [hcnt]; exact hcnt1, htask.mpr htk⟩
    · exact Or.inr ⟨hc1, by rw [hcnt]; exact hcnt0, fun hx => htk (htask.mp hx)⟩

theorem tempPhase_sysStep {mid cnt : Nat} {st : ServerState} (op : SysOp)
    (hp : TempPhase mid cnt st) :
    TempPhase mid (cnt + countDel mid (sysStep st op).2) (sysStep st op).1 := by
  cases op with
  | conn ws name short =>
    rw [show countDel mid (sysStep st (.conn ws name short)).2 = 0 from rfl, Nat.add_zero]
    exact tempPhase_of_eq rfl rfl rfl hp
  | disc ws =>
    have hd := disconnectState_core st ws
    rw [show countDel mid (sysStep st (.disc ws)).2 = 0 from rfl, Nat.add_zero]
    exact tempPhase_of_eq hd.1 hd.2.1 hd.2.2 hp
  | prune ws =>
    have hd := disconnectState_core st ws
    have hc : countDel mid (sysStep st (.prune ws)).2 = 0 := by
      show countDel mid (pruneOut st ws).2 = 0
      unfold pruneOut
      by_cases h : (alookup ws st.clients_info).isSome
      · rw [if_pos h]
        rfl
      · rw [if_neg h]
        rfl
    rw [hc, Nat.add_zero]
    rw [show (sysStep st (.prune ws)).1 = (pruneOut st ws).1 from rfl, pruneOut_fst]
    exact tempPhase_of_eq hd.1 hd.2.1 hd.2.2 hp
  | fire mid2 =>
    rw [show sysStep st (.fire mid2)
        = ((applyDelete st (mid2 : Int)).st, (applyDelete st (mid2 : Int)).sends)
      from fireTimer_eq_applyDelete st mid2]
    exact tempPhase_applyDelete (mid2 : Int) hp
  | line ws s =>
    show TempPhase mid (cnt + countDel mid (applyCmd st ws (parseLine s)).sends)
      (applyCmd st ws (parseLine s)).st
    cases parseLine s with
    | dropped =>
      show TempPhase mid (cnt + 0) st
      rw [Nat.add_zero]
      exact hp
    | exitCmd =>
      show TempPhase mid (cnt + 0) st
      rw [Nat.add_zero]
      exact hp
    | deleteById tid => exact tempPhase_applyDelete tid hp
    | deleteLast =>
      show TempPhase mid (cnt + countDel mid (match st.messages.getLast? with
          | none => (⟨st, [], false⟩ : HandleOut)
          | some mm => applyDelete st (mm.id : Int)).sends)
        (match st.messages.getLast? with
          | none => (⟨st, [], false⟩ : HandleOut)
          | some mm => applyDelete st (mm.id : Int)).st
      cases st.messages.getLast? with
      | none =>
        rw [show countDel mid (⟨st, [], false⟩ : HandleOut).sends = 0 from rfl, Nat.add_zero]
        exact hp
      | some mm => exact tempPhase_applyDelete (mm.id : Int) hp
    | reply rid text =>
      rw [show countDel mid (applyCmd st ws (.reply rid text)).sends = 0 from by
        show (0 : Nat) + 0 = 0
        rfl, Nat.add_zero]
      exact tempPhase_post hp _ rfl rfl rfl Iff.rfl
    | toCmd tc text =>
      rw [show countDel mid (applyCmd st ws (.toCmd tc text)).sends = 0 from by
        show (0 : Nat) + 0 = 0
        rfl, Nat.add_zero]
      exact tempPhase_post hp _ rfl rfl rfl Iff.rfl
    | publicPost text =>
      rw [show countDel mid (applyCmd st ws (.publicPost text)).sends = 0 from by
        show (0 : Nat) + 0 = 0
        rfl, Nat.add_zero]
      exact tempPhase_post hp _ rfl rfl rfl Iff.rfl
    | temp ttl text =>
      rw [show countDel mid (applyCmd st ws (.temp ttl text)).sends = 0 from by
        show (0 : Nat) + 0 = 0
        rfl, Nat.add_zero]
      refine tempPhase_post hp _ rfl rfl rfl ?_
      have hne : (mid : Int) ≠ (st.next_id : Int) := by
        have h2 := hp.2.1
        intro hx
        have : mid = st.next_id := by exact_mod_cast hx
        exact absurd (this ▸ h2) (Nat.lt_irrefl _)
      rw [show (applyCmd st ws (.temp ttl text)).st.temp_tasks
          = addKey (st.next_id : Int) st.temp_tasks from rfl]
      rw [mem_addKey]
      constructor
      · rintro (h1 | h1)
        · exact h1
        · exact absurd h1 hne
      · exact Or.inl

theorem tempPhase_run (mid : Nat) : ∀ (ops : List SysOp) (st : ServerState) (cnt : Nat),
    TempPhase mid cnt st → validTrace st ops = true →
    TempPhase mid (cnt + countDel mid (sysSends st ops)) (sysRun st ops) := by
  intro ops
  induction ops with
  | nil =>
    intro st cnt hp _
    rw [show countDel mid (sysSends st []) = 0 from rfl, Nat.add_zero]
    exact hp
  | cons op ops ih =>
    intro st cnt hp hv
    have hv2 := (Bool.and_eq_true _ _).mp hv
    have hstep := tempPhase_sysStep op hp
    have hrec := ih (sysStep st op).1 (cnt + countDel mid (sysStep st op).2) hstep hv2.2
    rw [show sysSends st (op :: ops)
        = (sysStep st op).2 ++ sysSends (sysStep st op).1 ops from rfl]
    rw [countDel_append]
    rw [show sysRun st (op :: ops) = sysRun (sysStep st op).1 ops from rfl]
    rw [← Nat.add_assoc]
    exact hrec

theorem tempPhase_after_temp (st : ServerState) (ws : Conn) (ttl : Int) (text : Str)
    (hids : ∀ m ∈ st.messages, m.id < st.next_id) :
    TempPhase st.next_id 0 (applyCmd st ws (.temp ttl text)).st := by
  refine ⟨?_, Nat.lt_succ_self _, Or.inl ⟨rfl, ?_, ?_⟩⟩
  · intro m hm
    rcases List.mem_append.mp hm with h1 | h1
    · exact Nat.lt_succ_of_lt (hids m h1)
    · rw [List.mem_singleton.mp h1]
      exact Nat.lt_succ_self _
  · rw [show (applyCmd st ws (.temp ttl text)).st.messages
        = st.messages ++ [⟨st.next_id, text, none, (senderInfo st ws).1,
            (senderInfo st ws).2, none, some (st.now + ttl)⟩] from rfl]
    rw [msgIdCount_append]
    rw [msgIdCount_eq_zero_of_all (fun m hm => Nat.ne_of_lt (hids m hm))]
    show 0 + ((if st.next_id = st.next_id then 1 else 0) + 0) = 1
    rw [if_pos rfl]
  · rw [show (applyCmd st ws (.temp ttl text)).st.temp_tasks
        = addKey (st.next_id : Int) st.temp_tasks from rfl]
    exact mem_addKey.mpr (Or.inr rfl)

/-- C6: after a `/temp` post creates the timed message with id `next_id`
and schedules its expiry task, any valid continuation of the run (timers
only fire while scheduled and uncancelled; manual `/delete` cancels by
popping `temp_tasks`) broadcasts at most one `delete` event for that id —
and exactly one precisely when the message has been removed from the
store (by manual delete or by the timer, whichever came first), at which
point the timer entry is gone as well, so the expiry can never fire a
second delete.  Since an undisturbed timer eventually fires, every timed
post's complete lifetime sees exactly one delete event. -/
theorem temp_exactly_one_delete (st : ServerState) (ws : Conn) (ttl : Int) (text : Str)
    (ops : List SysOp)
    (hids : ∀ m ∈ st.messages, m.id < st.next_id)
    (hv : validTrace (applyCmd st ws (.temp ttl text)).st ops = true) :
    countDel st.next_id (sysSends (applyCmd st ws (.temp ttl text)).st ops) ≤ 1 ∧
    (countDel st.next_id (sysSends (applyCmd st ws (.temp ttl text)).st ops) = 1 ↔
      msgIdCount st.next_id (sysRun (applyCmd st ws (.temp ttl text)).st ops).messages = 0) ∧
    (countDel st.next_id (sysSends (applyCmd st ws (.temp ttl text)).st ops) = 1 →
      (st.next_id : Int) ∉ (sysRun (applyCmd st ws (.temp ttl text)).st ops).temp_tasks) := by
  have h0 := tempPhase_after_temp st ws ttl text hids
  have hfin := tempPhase_run st.next_id ops (applyCmd st ws (.temp ttl text)).st 0 h0 hv
  rw [Nat.zero_add] at hfin
  obtain ⟨_, _, hph⟩ := hfin
  rcases hph with ⟨hc, hm, ht⟩ | ⟨hc, hm, ht⟩
  · refine ⟨by omega, ⟨?_, ?_⟩, ?_⟩
    · intro h1
      rw [hc] at h1
      exact absurd h1 (by decide)
    · intro h1
      rw [hm] at h1
      exact absurd h1 (by decide)
    · intro h1
      rw [hc] at h1
      exact absurd h1 (by decide)
  · exact ⟨by omega, ⟨fun _ => hm, fun _ => hc⟩, fun _ => ht⟩

/-- Witness for C6: from the empty server, conn 0 posts `/temp 5 hi`
(id 1), and the expiry timer then fires. -/
theorem temp_exactly_one_delete_witness :
    countDel initState.next_id
      (sysSends (applyCmd initState 0 (.temp 5 "hi".toList)).st [.fire 1]) ≤ 1 ∧
    (countDel initState.next_id
      (sysSends (applyCmd initState 0 (.temp 5 "hi".toList)).st [.fire 1]) = 1 ↔
      msgIdCount initState.next_id
        (sysRun (applyCmd initState 0 (.temp 5 "hi".toList)).st [.fire 1]).messages = 0) ∧
    (countDel initState.next_id
      (sysSends (applyCmd initState 0 (.temp 5 "hi".toList)).st [.fire 1]) = 1 →
      (initState.next_id : Int) ∉
        (sysRun (applyCmd initState 0 (.temp 5 "hi".toList)).st [.fire 1]).temp_tasks) :=
  temp_exactly_one_delete initState 0 5 "hi".toList [.fire 1] (by decide) (by decide)

end Chat
